import Mathlib

/-!
Verification of the octree core: region discretization, dynamic expansion, and
the fold framework. Shallow embedding of `src/octree.rs`. Scalars (the generic `S: Float` parameter)
are modelled as exact rationals `ℚ`; the `i32` level as `ℤ`; a `Vector3<S>` as
`Fin 3 → ℚ`. The external Morton codec is a supplied bijection from the
normalized triple in the unit cube to a key, so `discretize` here returns the
normalized triple that the code hands to the codec (`Some`/`None` structure and
the normalized values are exactly those of the source).
-/

set_option autoImplicit false

namespace Space

/-- Embeds `pub struct LeveledRegion(pub i32)`: a region from `[-2^level, 2^level)`.
The single `i32` tuple field is named `level`. -/
structure LeveledRegion where
  level : ℤ
deriving DecidableEq

/-- Embeds `let bound = (S::one() + S::one()).powi(self.0)` in `LeveledRegion::discretize`. -/
def LeveledRegion.bound (r : LeveledRegion) : ℚ := (2 : ℚ) ^ r.level

/-- Embeds `LeveledRegion::discretize`: reject when
`point.iter().any(|n| n.abs() > bound)`, otherwise return the point mapped by
`|n| (n + bound) / (S::one() + S::one()).powi(self.0 + 1)` (which the code then
feeds to the Morton codec). -/
def LeveledRegion.discretize (r : LeveledRegion) (point : Fin 3 → ℚ) :
    Option (Fin 3 → ℚ) :=
  if ∃ i : Fin 3, |point i| > r.bound then
    none
  else
    some (fun i => (point i + r.bound) / (2 : ℚ) ^ (r.level + 1))

/-- Embeds `pub struct CenteredLeveledRegion<S> { leveled_region: LeveledRegion, center: Vector3<S> }`. -/
structure CenteredLeveledRegion where
  leveled_region : LeveledRegion
  center : Fin 3 → ℚ

namespace CenteredLeveledRegion

/-- Embeds `let radius: S = S::from(2.0.powi(self.leveled_region.0) as f64)` in
`expand_loc` (the conversion is exact over `ℚ`). -/
def radius (s : CenteredLeveledRegion) : ℚ := (2 : ℚ) ^ s.leveled_region.level

/-- Embeds the `new_octant` vector of `expand_loc`:
`match (point[i] < lower_bound[i], point[i] >= upper_bound[i]) { (true, _) => 1, (_, true) => 0, _ => -1 }`
with `lower_bound = center - radius`, `upper_bound = center + radius`. -/
def newOctant (s : CenteredLeveledRegion) (point : Fin 3 → ℚ) (i : Fin 3) : ℤ :=
  if point i < s.center i - s.radius then 1
  else if point i ≥ s.center i + s.radius then 0
  else -1

/-- Embeds the `preferred_octant` vector of `expand_loc`:
`match (new_octant[i], point[i] < self.center[i]) { (-1, true) => 1, (-1, false) => 0, (x, _) => x }`. -/
def preferredOctant (s : CenteredLeveledRegion) (point : Fin 3 → ℚ) (i : Fin 3) : ℤ :=
  if s.newOctant point i = -1 then
    if point i < s.center i then 1 else 0
  else s.newOctant point i

/-- Embeds `CenteredLeveledRegion::expand_loc`: `None` when all three `new_octant`
entries are `-1`, otherwise the packed octant
`(preferred_octant[2] << 2) | (preferred_octant[1] << 1) | preferred_octant[0]`.
In the `Some` branch every `preferred_octant` entry is `0` or `1`, so the `i32`
shift/or is computed on naturals via `Int.toNat`. -/
def expand_loc (s : CenteredLeveledRegion) (point : Fin 3 → ℚ) : Option ℕ :=
  if s.newOctant point 0 = -1 ∧ s.newOctant point 1 = -1 ∧ s.newOctant point 2 = -1 then
    none
  else
    some (((s.preferredOctant point 2).toNat <<< 2) |||
          ((s.preferredOctant point 1).toNat <<< 1) |||
          (s.preferredOctant point 0).toNat)

/-- Embeds `CenteredLeveledRegion::discretize`: delegate to the wrapped region on
`point - self.center`. -/
def discretize (s : CenteredLeveledRegion) (point : Fin 3 → ℚ) : Option (Fin 3 → ℚ) :=
  s.leveled_region.discretize (fun i => point i - s.center i)

/-- Embeds `CenteredLeveledRegion::expand`: per axis the center moves by
`-(2.0.powi(self.leveled_region.0))` when `octant & (1 << i) != 0` and by
`+(2.0.powi(self.leveled_region.0))` otherwise, then `self.leveled_region.0 += 1`.
The `&mut self` mutation is state passing: the function returns the new value. -/
def expand (s : CenteredLeveledRegion) (octant : ℕ) : CenteredLeveledRegion where
  leveled_region := ⟨s.leveled_region.level + 1⟩
  center := fun i =>
    s.center i + (if octant &&& (1 <<< (i : ℕ)) ≠ 0 then -s.radius else s.radius)

end CenteredLeveledRegion

/-! ### Helper lemmas -/

theorem LeveledRegion.bound_pos (r : LeveledRegion) : 0 < r.bound := by
  unfold LeveledRegion.bound; positivity

theorem LeveledRegion.discretize_eq_none_iff (r : LeveledRegion) (p : Fin 3 → ℚ) :
    r.discretize p = none ↔ ∃ i : Fin 3, |p i| > r.bound := by
  unfold LeveledRegion.discretize
  split
  next h => exact iff_of_true rfl h
  next h => exact iff_of_false (by simp) h

theorem LeveledRegion.discretize_isSome_iff (r : LeveledRegion) (p : Fin 3 → ℚ) :
    (r.discretize p).isSome = true ↔ ∀ i : Fin 3, |p i| ≤ r.bound := by
  rw [← Option.ne_none_iff_isSome, ne_eq, r.discretize_eq_none_iff p]
  push_neg
  rfl

theorem one_le_two_pow (m : ℕ) : (1 : ℚ) ≤ 2 ^ m := one_le_pow₀ (by norm_num)

theorem and_one_shiftLeft_ne_zero (o i : ℕ) :
    (o &&& (1 <<< i) ≠ 0) ↔ o.testBit i = true := by
  rw [Nat.shiftLeft_eq, one_mul, Nat.and_two_pow]
  rcases h : o.testBit i <;> simp [h]

namespace CenteredLeveledRegion

theorem radius_pos (s : CenteredLeveledRegion) : 0 < s.radius := by
  unfold CenteredLeveledRegion.radius; positivity

theorem radius_eq_bound (s : CenteredLeveledRegion) : s.radius = s.leveled_region.bound := rfl

theorem newOctant_eq_neg_one_iff (s : CenteredLeveledRegion) (p : Fin 3 → ℚ) (i : Fin 3) :
    s.newOctant p i = -1 ↔
      s.center i - s.radius ≤ p i ∧ p i < s.center i + s.radius := by
  unfold CenteredLeveledRegion.newOctant
  by_cases h1 : p i < s.center i - s.radius
  · rw [if_pos h1]
    exact iff_of_false (by decide) (fun h2 => absurd h2.1 (not_le.mpr h1))
  · rw [if_neg h1]
    by_cases h2 : p i ≥ s.center i + s.radius
    · rw [if_pos h2]
      exact iff_of_false (by decide) (fun h3 => absurd h2 (not_le.mpr h3.2))
    · rw [if_neg h2]
      exact iff_of_true rfl ⟨not_lt.mp h1, not_le.mp h2⟩

theorem expand_loc_eq_none_iff (s : CenteredLeveledRegion) (p : Fin 3 → ℚ) :
    s.expand_loc p = none ↔
      ∀ i : Fin 3, s.center i - s.radius ≤ p i ∧ p i < s.center i + s.radius := by
  unfold CenteredLeveledRegion.expand_loc
  split
  next h =>
    refine iff_of_true rfl (fun i => ?_)
    fin_cases i
    · exact (s.newOctant_eq_neg_one_iff p 0).mp h.1
    · exact (s.newOctant_eq_neg_one_iff p 1).mp h.2.1
    · exact (s.newOctant_eq_neg_one_iff p 2).mp h.2.2
  next h =>
    refine iff_of_false (by simp) (fun hall => h ?_)
    exact ⟨(s.newOctant_eq_neg_one_iff p 0).mpr (hall 0),
      (s.newOctant_eq_neg_one_iff p 1).mpr (hall 1),
      (s.newOctant_eq_neg_one_iff p 2).mpr (hall 2)⟩

theorem preferredOctant_eq (s : CenteredLeveledRegion) (p : Fin 3 → ℚ) (i : Fin 3) :
    s.preferredOctant p i = if p i < s.center i then 1 else 0 := by
  have hr := s.radius_pos
  unfold CenteredLeveledRegion.preferredOctant CenteredLeveledRegion.newOctant
  by_cases h1 : p i < s.center i - s.radius
  · rw [if_pos h1, if_neg (by decide), if_pos (show p i < s.center i by linarith)]
  · rw [if_neg h1]
    by_cases h2 : p i ≥ s.center i + s.radius
    · rw [if_pos h2, if_neg (by decide),
        if_neg (show ¬p i < s.center i by push_neg; linarith)]
    · rw [if_neg h2, if_pos rfl]

theorem expand_loc_eq_some_pack (s : CenteredLeveledRegion) (p : Fin 3 → ℚ) (o : ℕ)
    (h : s.expand_loc p = some o) :
    o = (if p 2 < s.center 2 then (1:ℕ) else 0) <<< 2 |||
        (if p 1 < s.center 1 then (1:ℕ) else 0) <<< 1 |||
        (if p 0 < s.center 0 then (1:ℕ) else 0) := by
  unfold CenteredLeveledRegion.expand_loc at h
  split at h
  · exact absurd h (by simp)
  · rw [Option.some_inj] at h
    rw [← h, s.preferredOctant_eq p 0, s.preferredOctant_eq p 1, s.preferredOctant_eq p 2]
    congr 2
    · congr 1
      split <;> rfl
    · split <;> rfl
    · split <;> rfl

theorem expand_loc_testBit (s : CenteredLeveledRegion) (p : Fin 3 → ℚ) (o : ℕ)
    (h : s.expand_loc p = some o) :
    o < 8 ∧ ∀ i : Fin 3, o.testBit (i : ℕ) = decide (p i < s.center i) := by
  rw [s.expand_loc_eq_some_pack p o h]
  by_cases h0 : p 0 < s.center 0 <;> by_cases h1 : p 1 < s.center 1 <;>
    by_cases h2 : p 2 < s.center 2 <;>
    simp only [h0, h1, h2, if_pos, if_neg, if_true, if_false, decide_eq_true_eq] <;>
    exact ⟨by decide, fun i => by fin_cases i <;> simp [h0, h1, h2] <;> decide⟩

theorem expand_level (s : CenteredLeveledRegion) (o : ℕ) :
    (s.expand o).leveled_region.level = s.leveled_region.level + 1 := rfl

theorem expand_radius (s : CenteredLeveledRegion) (o : ℕ) :
    (s.expand o).radius = 2 * s.radius := by
  unfold CenteredLeveledRegion.radius
  rw [expand_level, zpow_add_one₀ (by norm_num)]
  ring

theorem expand_center (s : CenteredLeveledRegion) (o : ℕ) (i : Fin 3) :
    (s.expand o).center i =
      s.center i + (if o.testBit (i : ℕ) = true then -s.radius else s.radius) := by
  unfold CenteredLeveledRegion.expand
  simp only
  rw [if_congr (and_one_shiftLeft_ne_zero o (i : ℕ)) rfl rfl]

end CenteredLeveledRegion

/-- Embeds one round of the retry loop that spec §4.5 assigns to the owning tree
(repeated application of `expand_loc` plus `expand`, re-testing between steps):
ask `expand_loc` for the octant and `expand` by it, doing nothing when `expand_loc`
reports the point already inside. -/
def expandStep (p : Fin 3 → ℚ) (s : CenteredLeveledRegion) : CenteredLeveledRegion :=
  match s.expand_loc p with
  | some o => s.expand o
  | none => s

/-- Iterates `expandStep` a given number of times. -/
def expandIter (p : Fin 3 → ℚ) : ℕ → CenteredLeveledRegion → CenteredLeveledRegion
  | 0, s => s
  | m + 1, s => expandIter p m (expandStep p s)

/-- Operations exposed on a `CenteredLeveledRegion` (spec §6). `expand` takes
`&mut self`; `discretize` takes `self` by value (the struct is `Copy`) and
`expand_loc` takes `&self`, so neither of the latter can change the caller's state:
their embedding returns the state unchanged alongside no mutation. -/
inductive Op where
  | expandOp (octant : ℕ) : Op
  | discretizeOp (point : Fin 3 → ℚ) : Op
  | expandLocOp (point : Fin 3 → ℚ) : Op

/-- State transition of one operation call on the region. -/
def applyOp (s : CenteredLeveledRegion) : Op → CenteredLeveledRegion
  | .expandOp o => s.expand o
  | .discretizeOp _ => s
  | .expandLocOp _ => s

/-- Whether an operation is an `expand` call. -/
def Op.isExpand : Op → Bool
  | .expandOp _ => true
  | _ => false

/-- State after a sequence of operation calls. -/
def applyOps (s : CenteredLeveledRegion) (ops : List Op) : CenteredLeveledRegion :=
  ops.foldl applyOp s

/-- Embeds the `Folder<Item, M>` trait: `gather` lifts one leaf, `fold` combines
the children's sums (the Rust `Iterator` argument is a list in iteration order). -/
structure Folder (Item M Sum : Type) where
  gather : M → Item → Sum
  fold : List Sum → Sum

/-- Embeds the 2-way `tuple_folder!` impl of `Folder` for `(A, B)`: `gather` pairs
the members' gathers; `fold` pushes each incoming pair's components onto two
`SmallVec` accumulators (in iteration order, starting from the `default` empty
vectors) and then folds each member over its own vector. -/
def tupleFolder {Item M SA SB : Type} (A : Folder Item M SA) (B : Folder Item M SB) :
    Folder Item M (SA × SB) where
  gather morton item := (A.gather morton item, B.gather morton item)
  fold it :=
    let sm := it.foldl
      (fun acc x => (acc.1 ++ [x.1], acc.2 ++ [x.2])) (([], []) : List SA × List SB)
    (A.fold sm.1, B.fold sm.2)

theorem foldl_push_pair {SA SB : Type} (l : List (SA × SB)) (a : List SA) (b : List SB) :
    l.foldl (fun acc x => (acc.1 ++ [x.1], acc.2 ++ [x.2])) (a, b) =
      (a ++ l.map Prod.fst, b ++ l.map Prod.snd) := by
  induction l generalizing a b with
  | nil => simp
  | cons x xs ih => simp [ih]

theorem discretize_level_zero_ones :
    (LeveledRegion.mk 0).discretize (fun _ => 1) = some (fun _ => 1) := by
  unfold LeveledRegion.discretize LeveledRegion.bound
  rw [if_neg]
  · congr 1
    funext i
    norm_num
  · simp

/-! ### Claim theorems -/

/-- Claim C1: for every level and every point, `LeveledRegion.discretize` returns
`none` iff some axis coordinate's absolute value is strictly greater than the
bound `2^level`; a coordinate exactly at the bound is accepted, so in particular
`LeveledRegion(0).discretize((1,1,1))` is `some`. -/
theorem discretize_none_iff_strictly_outside :
    (∀ (r : LeveledRegion) (p : Fin 3 → ℚ),
        r.discretize p = none ↔ ∃ i : Fin 3, |p i| > (2:ℚ) ^ r.level) ∧
    ((LeveledRegion.mk 0).discretize (fun _ => 1)).isSome = true :=
  ⟨fun r p => r.discretize_eq_none_iff p, by rw [discretize_level_zero_ones]; rfl⟩

/-- Witness for C1: the rejection direction at a concrete strictly-outside point. -/
theorem discretize_none_iff_strictly_outside_witness :
    (LeveledRegion.mk 0).discretize (fun _ => (3:ℚ)/2) = none :=
  (discretize_none_iff_strictly_outside.1 ⟨0⟩ (fun _ => (3:ℚ)/2)).mpr
    ⟨0, by rw [abs_of_nonneg (by norm_num : (0:ℚ) ≤ 3/2)]; norm_num⟩

/-- Claim C2: `expand_loc` returns `none` (no expansion needed) iff on every axis
the coordinate satisfies `center - radius ≤ p < center + radius` where
`radius = 2^level`. -/
theorem expand_loc_none_iff_inside :
    ∀ (s : CenteredLeveledRegion) (p : Fin 3 → ℚ),
      s.expand_loc p = none ↔
        ∀ i : Fin 3, s.center i - (2:ℚ) ^ s.leveled_region.level ≤ p i ∧
          p i < s.center i + (2:ℚ) ^ s.leveled_region.level :=
  fun s p => s.expand_loc_eq_none_iff p

/-- Witness for C2: a concrete inside point yields `none`. -/
theorem expand_loc_none_iff_inside_witness :
    (CenteredLeveledRegion.mk ⟨0⟩ (fun _ => 0)).expand_loc (fun _ => 0) = none :=
  (expand_loc_none_iff_inside ⟨⟨0⟩, fun _ => 0⟩ (fun _ => 0)).mpr
    (fun i => by norm_num)

/-- Claim C8 as stated is false at a concrete input: at level 0 the boundary point
`(1,1,1)` is accepted and normalizes to `1` on every axis, which is outside the
half-open interval `[0,1)`. -/
theorem discretize_normalized_lt_one_false :
    ¬ ∀ (r : LeveledRegion) (p q : Fin 3 → ℚ), r.discretize p = some q →
        ∀ i : Fin 3, 0 ≤ q i ∧ q i < 1 := fun hclaim =>
  absurd (hclaim ⟨0⟩ (fun _ => 1) (fun _ => 1) discretize_level_zero_ones 0).2
    (lt_irrefl 1)

/-- Claim C8 amended: for every accepted point the normalized value on each axis
lies in the closed interval `[0,1]` (the value `1` occurs exactly at a coordinate
equal to `+bound`). -/
theorem discretize_normalized_mem_closed_unit (r : LeveledRegion) (p q : Fin 3 → ℚ)
    (h : r.discretize p = some q) : ∀ i : Fin 3, 0 ≤ q i ∧ q i ≤ 1 := by
  have hb := r.bound_pos
  unfold LeveledRegion.discretize at h
  split at h
  · exact absurd h (by simp)
  next hno =>
    push_neg at hno
    rw [Option.some_inj] at h
    intro i
    rw [← h]
    have habs := abs_le.mp (hno i)
    have h2 : (2:ℚ) ^ (r.level + 1) = 2 * r.bound := by
      unfold LeveledRegion.bound
      rw [zpow_add_one₀ (by norm_num)]
      ring
    rw [h2]
    constructor
    · apply div_nonneg (by linarith [habs.1]) (by linarith)
    · rw [div_le_one (by linarith)]
      linarith [habs.2]

/-- Witness for C8's amended claim at a concrete accepted boundary point. -/
theorem discretize_normalized_mem_closed_unit_witness :
    (LeveledRegion.mk 0).discretize (fun _ => 1) = some (fun _ => 1) ∧
    ∀ _i : Fin 3, 0 ≤ (1:ℚ) ∧ (1:ℚ) ≤ 1 :=
  ⟨discretize_level_zero_ones,
    discretize_normalized_mem_closed_unit ⟨0⟩ (fun _ => 1) (fun _ => 1)
      discretize_level_zero_ones⟩

/-- Sample region at level 0 centered at the origin, for concrete instantiations. -/
def sampleRegion : CenteredLeveledRegion := ⟨⟨0⟩, fun _ => 0⟩

/-- Sample point strictly outside `sampleRegion` on every axis. -/
def samplePoint : Fin 3 → ℚ := fun _ => 3

theorem sample_expand_loc : sampleRegion.expand_loc samplePoint = some 0 := by
  unfold CenteredLeveledRegion.expand_loc
  rw [if_neg, sampleRegion.preferredOctant_eq samplePoint 0,
      sampleRegion.preferredOctant_eq samplePoint 1,
      sampleRegion.preferredOctant_eq samplePoint 2]
  · norm_num [sampleRegion, samplePoint]
  · unfold CenteredLeveledRegion.newOctant sampleRegion samplePoint
      CenteredLeveledRegion.radius
    norm_num

theorem sample_inside :
    ∀ i : Fin 3, sampleRegion.center i - sampleRegion.radius ≤ (0:ℚ) ∧
      (0:ℚ) < sampleRegion.center i + sampleRegion.radius := by
  intro i
  unfold sampleRegion CenteredLeveledRegion.radius
  norm_num

/-- Claim C3: whenever `expand_loc` returns `some o`, `o` is a 3-bit octant index
(`o < 8`) and per axis `i`: the bit is set when the point is below the region
(`p < center - radius`), clear when at/above it (`p ≥ center + radius`), and for
an inside axis it equals the tie-break comparison against the center (equality
routed to the clear branch); bits are packed x→0, y→1, z→2. -/
theorem expand_loc_octant_bits (s : CenteredLeveledRegion) (p : Fin 3 → ℚ) (o : ℕ)
    (h : s.expand_loc p = some o) :
    o < 8 ∧
    ∀ i : Fin 3,
      (p i < s.center i - s.radius → o.testBit (i : ℕ) = true) ∧
      (s.center i + s.radius ≤ p i → o.testBit (i : ℕ) = false) ∧
      (s.center i - s.radius ≤ p i → p i < s.center i + s.radius →
        o.testBit (i : ℕ) = decide (p i < s.center i)) := by
  obtain ⟨hlt, hbit⟩ := s.expand_loc_testBit p o h
  have hr := s.radius_pos
  refine ⟨hlt, fun i => ⟨fun h1 => ?_, fun h2 => ?_, fun _ _ => hbit i⟩⟩
  · rw [hbit i, decide_eq_true_eq]
    linarith
  · rw [hbit i, decide_eq_false_iff_not]
    intro hc
    linarith

/-- Witness for C3 at a concrete region and point outside on every axis. -/
theorem expand_loc_octant_bits_witness :
    sampleRegion.expand_loc samplePoint = some 0 ∧
    (0 < 8 ∧
      ∀ i : Fin 3,
        (samplePoint i < sampleRegion.center i - sampleRegion.radius →
          Nat.testBit 0 (i : ℕ) = true) ∧
        (sampleRegion.center i + sampleRegion.radius ≤ samplePoint i →
          Nat.testBit 0 (i : ℕ) = false) ∧
        (sampleRegion.center i - sampleRegion.radius ≤ samplePoint i →
          samplePoint i < sampleRegion.center i + sampleRegion.radius →
          Nat.testBit 0 (i : ℕ) = decide (samplePoint i < sampleRegion.center i))) :=
  ⟨sample_expand_loc, expand_loc_octant_bits sampleRegion samplePoint 0 sample_expand_loc⟩

/-- Claim C4: after `expand o` the level is exactly the old level plus one, and on
each axis the center moved by `-2^level` (minus the old bound) when bit `i` of `o`
is set and by `+2^level` when clear; level and center are the whole state, so
nothing else changes. -/
theorem expand_increments_level_and_shifts_center (s : CenteredLeveledRegion) (o : ℕ) :
    (s.expand o).leveled_region.level = s.leveled_region.level + 1 ∧
    ∀ i : Fin 3, (s.expand o).center i =
      s.center i + (if o.testBit (i : ℕ) = true then -(2:ℚ) ^ s.leveled_region.level
        else (2:ℚ) ^ s.leveled_region.level) :=
  ⟨s.expand_level o, fun i => s.expand_center o i⟩

/-- Witness for C4 at a concrete region and octant. -/
theorem expand_increments_level_and_shifts_center_witness :
    (sampleRegion.expand 5).leveled_region.level = sampleRegion.leveled_region.level + 1 ∧
    ∀ i : Fin 3, (sampleRegion.expand 5).center i =
      sampleRegion.center i +
        (if Nat.testBit 5 (i : ℕ) = true then -(2:ℚ) ^ sampleRegion.leveled_region.level
          else (2:ℚ) ^ sampleRegion.leveled_region.level) :=
  expand_increments_level_and_shifts_center sampleRegion 5

/-- Claim C10: after `expand o` the old per-axis interval `[c - r, c + r)` is
exactly the sub-octant of the new cube selected by `o`: the upper half
`[c', c' + 2r)` when bit `i` is set and the lower half `[c' - 2r, c')` when
clear; consequently the expanded region contains the old region. -/
theorem expand_octant_geometry (s : CenteredLeveledRegion) (o : ℕ) :
    ((s.expand o).radius = 2 * s.radius ∧
      ∀ i : Fin 3,
        (o.testBit (i : ℕ) = true →
          s.center i - s.radius = (s.expand o).center i ∧
          s.center i + s.radius = (s.expand o).center i + (s.expand o).radius) ∧
        (o.testBit (i : ℕ) = false →
          s.center i - s.radius = (s.expand o).center i - (s.expand o).radius ∧
          s.center i + s.radius = (s.expand o).center i)) ∧
    ∀ p : Fin 3 → ℚ,
      (∀ i : Fin 3, s.center i - s.radius ≤ p i ∧ p i < s.center i + s.radius) →
      ∀ i : Fin 3, (s.expand o).center i - (s.expand o).radius ≤ p i ∧
        p i < (s.expand o).center i + (s.expand o).radius := by
  have hr := s.radius_pos
  constructor
  · refine ⟨s.expand_radius o, fun i => ⟨fun hbit => ?_, fun hbit => ?_⟩⟩
    · rw [s.expand_center o i, s.expand_radius o, if_pos hbit]
      constructor <;> ring
    · rw [s.expand_center o i, s.expand_radius o, if_neg (by simp [hbit])]
      constructor <;> ring
  · intro p hp i
    obtain ⟨hlo, hhi⟩ := hp i
    rw [s.expand_center o i, s.expand_radius o]
    rcases hbit : o.testBit (i : ℕ) <;> simp only [if_pos, if_neg, Bool.false_eq_true,
      if_false, if_true] <;> constructor <;> linarith

/-- Witness for C10: the containment at a concrete region, octant, and point. -/
theorem expand_octant_geometry_witness :
    (∀ i : Fin 3, sampleRegion.center i - sampleRegion.radius ≤ (0:ℚ) ∧
      (0:ℚ) < sampleRegion.center i + sampleRegion.radius) ∧
    ∀ i : Fin 3, (sampleRegion.expand 5).center i - (sampleRegion.expand 5).radius ≤ (0:ℚ) ∧
      (0:ℚ) < (sampleRegion.expand 5).center i + (sampleRegion.expand 5).radius :=
  ⟨sample_inside, (expand_octant_geometry sampleRegion 5).2 (fun _ => 0) sample_inside⟩

theorem CenteredLeveledRegion.centered_discretize_isSome_iff (s : CenteredLeveledRegion)
    (p : Fin 3 → ℚ) :
    (s.discretize p).isSome = true ↔ ∀ i : Fin 3, |p i - s.center i| ≤ s.radius := by
  unfold CenteredLeveledRegion.discretize
  rw [LeveledRegion.discretize_isSome_iff]
  exact Iff.rfl

/-- Claim C5: the `expand_loc`+`expand` retry loop converges, in a number of steps
proportional to the log of the point's distance from the center over the initial
bound: whenever every axis offset is at most `2^m` times the current bound, after
`m` steps `discretize` accepts the point (every point, rejected initially or not,
has such an `m`, so this subsumes the initially-rejected case). -/
theorem expand_iteration_converges (p : Fin 3 → ℚ) (m : ℕ) (s : CenteredLeveledRegion)
    (h : ∀ i : Fin 3, |p i - s.center i| ≤ 2 ^ m * s.radius) :
    ((expandIter p m s).discretize p).isSome = true := by
  induction m generalizing s with
  | zero =>
    rw [show expandIter p 0 s = s from rfl, s.centered_discretize_isSome_iff p]
    intro i
    simpa using h i
  | succ m ih =>
    rw [show expandIter p (m + 1) s = expandIter p m (expandStep p s) from rfl]
    apply ih
    unfold expandStep
    have hr := s.radius_pos
    cases hel : s.expand_loc p with
    | none =>
      intro i
      obtain ⟨hlo, hhi⟩ := (s.expand_loc_eq_none_iff p).mp hel i
      have hrle : s.radius ≤ 2 ^ m * s.radius :=
        le_mul_of_one_le_left hr.le (one_le_two_pow m)
      have habs : |p i - s.center i| ≤ s.radius :=
        abs_le.mpr ⟨by linarith, by linarith⟩
      linarith
    | some o =>
      intro i
      have hbit := (s.expand_loc_testBit p o hel).2 i
      rw [s.expand_center o i, s.expand_radius o, hbit,
        show (2:ℚ) ^ m * (2 * s.radius) = 2 ^ (m + 1) * s.radius by ring]
      have hd := abs_le.mp (h i)
      have hrle : s.radius ≤ 2 ^ (m + 1) * s.radius :=
        le_mul_of_one_le_left hr.le (one_le_two_pow (m + 1))
      by_cases hpc : p i < s.center i
      · rw [if_pos (decide_eq_true hpc)]
        rw [abs_le]
        constructor <;> linarith [hd.1, hd.2]
      · rw [if_neg (by simp [hpc])]
        push_neg at hpc
        rw [abs_le]
        constructor <;> linarith [hd.1, hd.2]

/-- Offsets of `samplePoint` from `sampleRegion`'s center fit within `2^2` bounds. -/
theorem sample_far :
    ∀ i : Fin 3, |samplePoint i - sampleRegion.center i| ≤ 2 ^ 2 * sampleRegion.radius := by
  intro i
  unfold samplePoint sampleRegion CenteredLeveledRegion.radius
  rw [show ((fun _ : Fin 3 => (3:ℚ)) i - (fun _ : Fin 3 => (0:ℚ)) i) = 3 by norm_num,
    abs_of_nonneg (by norm_num : (0:ℚ) ≤ 3)]
  norm_num

/-- Witness for C5 at a concrete region and point: two steps suffice. -/
theorem expand_iteration_converges_witness :
    (∀ i : Fin 3, |samplePoint i - sampleRegion.center i| ≤ 2 ^ 2 * sampleRegion.radius) ∧
    ((expandIter samplePoint 2 sampleRegion).discretize samplePoint).isSome = true :=
  ⟨sample_far, expand_iteration_converges samplePoint 2 sampleRegion sample_far⟩

/-- Claim C6: the 2-way composite folder's `gather` is the pair of the members'
gathers, and for any sequence of 1 to 8 pair-sums its `fold` is the pair of the
members' folds applied to the first (resp. second) components in the caller's
order — the pair of results each member would produce run alone. -/
theorem tuple_folder_componentwise {Item M SA SB : Type}
    (A : Folder Item M SA) (B : Folder Item M SB) :
    (∀ (m : M) (item : Item),
      (tupleFolder A B).gather m item = (A.gather m item, B.gather m item)) ∧
    ∀ l : List (SA × SB), 1 ≤ l.length → l.length ≤ 8 →
      (tupleFolder A B).fold l = (A.fold (l.map Prod.fst), B.fold (l.map Prod.snd)) := by
  refine ⟨fun m item => rfl, fun l h1 h8 => ?_⟩
  simp only [tupleFolder]
  rw [foldl_push_pair]
  simp

/-- Leaf-counting folder (spec §8's F1). -/
def countFolder : Folder ℕ ℕ ℕ where
  gather _ _ := 1
  fold l := l.foldl (· + ·) 0

/-- Key-collecting folder (spec §8's F2). -/
def keysFolder : Folder ℕ ℕ (List ℕ) where
  gather m _ := [m]
  fold l := l.foldl (· ++ ·) []

/-- The 8 child sums of a depth-2, 8-leaf synthetic tree, as pairs. -/
def samplePairs : List (ℕ × List ℕ) :=
  [(1, [0]), (1, [1]), (1, [2]), (1, [3]), (1, [4]), (1, [5]), (1, [6]), (1, [7])]

/-- Witness for C6 on a concrete 8-element sequence of pair-sums. -/
theorem tuple_folder_componentwise_witness :
    1 ≤ samplePairs.length ∧ samplePairs.length ≤ 8 ∧
    (tupleFolder countFolder keysFolder).fold samplePairs =
      (countFolder.fold (samplePairs.map Prod.fst),
       keysFolder.fold (samplePairs.map Prod.snd)) :=
  ⟨by decide, by decide,
    (tuple_folder_componentwise countFolder keysFolder).2 samplePairs
      (by decide) (by decide)⟩

/-- Claim C7: the level is monotonically non-decreasing over every operation
sequence: `discretize` and `expand_loc` leave the state unchanged (they do not
take `&mut self`), `expand` is the only mutator and adds exactly 1 to the level,
so after any sequence the level is the initial level plus the number of `expand`
calls, hence never below the initial level. -/
theorem level_monotone_over_ops :
    (∀ (s : CenteredLeveledRegion) (p : Fin 3 → ℚ),
      applyOp s (.discretizeOp p) = s ∧ applyOp s (.expandLocOp p) = s) ∧
    (∀ (s : CenteredLeveledRegion) (o : ℕ),
      (applyOp s (.expandOp o)).leveled_region.level = s.leveled_region.level + 1) ∧
    ∀ (ops : List Op) (s : CenteredLeveledRegion),
      (applyOps s ops).leveled_region.level =
        s.leveled_region.level + (ops.countP Op.isExpand : ℤ) ∧
      s.leveled_region.level ≤ (applyOps s ops).leveled_region.level := by
  refine ⟨fun s p => ⟨rfl, rfl⟩, fun s o => rfl, fun ops => ?_⟩
  induction ops with
  | nil =>
    intro s
    simp [applyOps]
  | cons op rest ih =>
    intro s
    have hrest := ih (applyOp s op)
    have hcount : ((op :: rest).countP Op.isExpand : ℤ) =
        (rest.countP Op.isExpand : ℤ) + (if Op.isExpand op then 1 else 0) := by
      rw [List.countP_cons]
      push_cast
      split <;> simp
    have happ : applyOps s (op :: rest) = applyOps (applyOp s op) rest := rfl
    cases op with
    | expandOp o =>
      rw [happ, hcount]
      have hlev : (applyOp s (.expandOp o)).leveled_region.level =
          s.leveled_region.level + 1 := rfl
      refine ⟨?_, ?_⟩
      · rw [hrest.1, hlev]
        simp only [Op.isExpand, if_true]
        ring
      · have h2 := hrest.2
        rw [hlev] at h2
        omega
    | discretizeOp q =>
      rw [happ, hcount]
      refine ⟨?_, ?_⟩
      · rw [hrest.1]
        simp [Op.isExpand, applyOp]
      · exact hrest.2
    | expandLocOp q =>
      rw [happ, hcount]
      refine ⟨?_, ?_⟩
      · rw [hrest.1]
        simp [Op.isExpand, applyOp]
      · exact hrest.2

/-- Witness for C7 on a concrete operation sequence. -/
theorem level_monotone_over_ops_witness :
    (applyOps sampleRegion
        [.expandOp 3, .discretizeOp (fun _ => 0), .expandOp 0]).leveled_region.level =
      sampleRegion.leveled_region.level +
        (([Op.expandOp 3, .discretizeOp (fun _ => 0),
           .expandOp 0].countP Op.isExpand : ℕ) : ℤ) ∧
    sampleRegion.leveled_region.level ≤
      (applyOps sampleRegion
        [.expandOp 3, .discretizeOp (fun _ => 0), .expandOp 0]).leveled_region.level :=
  level_monotone_over_ops.2.2 [.expandOp 3, .discretizeOp (fun _ => 0), .expandOp 0]
    sampleRegion

end Space
